import Mathlib

/-!
Shallow embedding of the positional-index search engine of
src/src/parser_v3.py: tokenizer, positional inverted index, IDF
computation, TF-IDF ranked retrieval and positional phrase search.

Modelling conventions.  Python dicts are insertion-ordered association
lists with unique keys, so lookup, in-place update and end-of-list
insertion mirror the dict operations of the source.  Python floats are
idealized as real numbers where a logarithm is computed, and the query
engines are stated over an arbitrary linear ordered commutative ring
(they only add, multiply and compare scores), so that they stay
executable at the integers.  Python's sorted is a stable sort;
every stable sort computes the same list, so it is modelled by a stable
insertion sort.  The corpus source (directory listing plus file reads)
is an external collaborator and enters as the list of (document id,
raw text) pairs it supplies.
-/

namespace SearchEngine

/-- First-match lookup in an association list: Python d[k] and d.get(k). -/
def dget {β : Type} (m : List (String × β)) (k : String) : Option β :=
  match m with
  | [] => none
  | (k', v) :: rest => if k' = k then some v else dget rest k

/-- Keyed update: Python d[k] = f(old).  A present key is updated in
place, an absent key is appended at the end, exactly the insertion-order
behaviour of a Python dict. -/
def dupd {β : Type} (m : List (String × β)) (k : String) (f : Option β → β) :
    List (String × β) :=
  match m with
  | [] => [(k, f none)]
  | (k', v) :: rest =>
    if k' = k then (k', f (some v)) :: rest else (k', v) :: dupd rest k f

/-- Keys of an association list, in insertion order: Python d.keys(). -/
def dkeys {β : Type} (m : List (String × β)) : List String := m.map Prod.fst

/-- Stop words removed by the tokenizer (STOP_WORDS in the source). -/
def STOP_WORDS : List String :=
  ["the", "is", "at", "on", "and", "a", "an", "of", "to", "in"]

/-- ASCII punctuation deleted by the translate step: Python's
string.punctuation is exactly the characters with codes 33-47, 58-64,
91-96 and 123-126. -/
def isPyPunct (c : Char) : Bool :=
  (33 ≤ c.toNat && c.toNat ≤ 47) || (58 ≤ c.toNat && c.toNat ≤ 64) ||
  (91 ≤ c.toNat && c.toNat ≤ 96) || (123 ≤ c.toNat && c.toNat ≤ 126)

/-- Whitespace recognized by Python's str.split with no argument:
space, tab, newline, carriage return, vertical tab, form feed. -/
def isPySpace (c : Char) : Bool :=
  c.toNat == 32 || c.toNat == 9 || c.toNat == 10 ||
  c.toNat == 13 || c.toNat == 11 || c.toNat == 12

/-- Split a character list into its maximal runs of non-whitespace
characters, the behaviour of Python's str.split() (no empty words). -/
def splitWordsAux (l : List Char) (cur : List Char) : List String :=
  match l with
  | [] => if cur.isEmpty then [] else [String.mk cur.reverse]
  | c :: rest =>
    if isPySpace c then
      if cur.isEmpty then splitWordsAux rest []
      else String.mk cur.reverse :: splitWordsAux rest []
    else splitWordsAux rest (c :: cur)

/-- Document tokenizer: lowercase, delete punctuation, split on
whitespace, drop empty tokens and stop words. -/
def tokenize (text : String) : List String :=
  let lowered := text.data.map Char.toLower
  let stripped := lowered.filter (fun c => !(isPyPunct c))
  (splitWordsAux stripped []).filter (fun w => w != "" && !(STOP_WORDS.contains w))

/-- Query tokenizer: the source repeats the document pipeline verbatim
in a second function, so the embedding does the same. -/
def tokenize_query (query : String) : List String :=
  let lowered := query.data.map Char.toLower
  let stripped := lowered.filter (fun c => !(isPyPunct c))
  (splitWordsAux stripped []).filter (fun w => w != "" && !(STOP_WORDS.contains w))

/-- index[term][doc] = list of token ordinals. -/
abbrev PositionalIndex := List (String × List (String × List Nat))

/-- Body of the indexing loop: record one occurrence of term in doc at
ordinal pos, creating the term entry and the doc entry on first use. -/
def addPosting (idx : PositionalIndex) (term doc : String) (pos : Nat) :
    PositionalIndex :=
  dupd idx term (fun postings =>
    dupd (postings.getD []) doc (fun ps => ps.getD [] ++ [pos]))

/-- Inner loop over enumerate(tokens) for one document, carrying the
next ordinal. -/
def indexTokens (idx : PositionalIndex) (doc : String) (tokens : List String)
    (pos : Nat) : PositionalIndex :=
  match tokens with
  | [] => idx
  | t :: rest => indexTokens (addPosting idx t doc pos) doc rest (pos + 1)

/-- Index a corpus given as (doc id, token list) pairs, in order. -/
def buildIndexTokens (corpus : List (String × List String)) : PositionalIndex :=
  corpus.foldl (fun idx p => indexTokens idx p.1 p.2 0) []

/-- build_positional_index over the (filename, raw text) pairs supplied
by the corpus source, in its (sorted) order; returns the index and the
number of documents. -/
def build_positional_index (corpus : List (String × String)) :
    PositionalIndex × Nat :=
  (buildIndexTokens (corpus.map (fun p => (p.1, tokenize p.2))), corpus.length)

/-- compute_idf: idf[term] = log(total_docs / DF(term)) for every term
with a non-empty posting map, the empty map when total_docs <= 0. -/
noncomputable def compute_idf (index : PositionalIndex) (total_docs : Int) :
    List (String × ℝ) :=
  if total_docs ≤ 0 then []
  else index.filterMap (fun p =>
    if 0 < p.2.length then
      some (p.1, Real.log ((total_docs : ℝ) / (p.2.length : ℝ)))
    else none)

/-- Insertion step of a stable sort: the new element goes after every
element that compares less-or-equal to it, so ties keep their original
relative order, as Python's sorted guarantees. -/
def insertTail {α : Type} (le : α → α → Bool) (a : α) : List α → List α
  | [] => [a]
  | b :: l => if le b a then b :: insertTail le a l else a :: b :: l

/-- Stable sort by the comparison le.  All stable sorts agree, so this
models Python's sorted faithfully. -/
def sortStable {α : Type} (le : α → α → Bool) (l : List α) : List α :=
  l.foldl (fun acc a => insertTail le a acc) []

/-- Code-point lexicographic comparison of character lists. -/
def charListLe : List Char → List Char → Bool
  | [], _ => true
  | _ :: _, [] => false
  | c :: cs, d :: ds =>
    if c.toNat < d.toNat then true
    else if d.toNat < c.toNat then false
    else charListLe cs ds

/-- Python's string comparison: code-point lexicographic order. -/
def strLe (a b : String) : Bool := charListLe a.data b.data

/-- Inner loop of the ranked engine for one term's posting map:
scores[doc] = scores.get(doc, 0.0) + len(positions) * w. -/
def accumPostings {R : Type} [LinearOrderedCommRing R] (scores : List (String × R))
    (postings : List (String × List Nat)) (w : R) : List (String × R) :=
  postings.foldl (fun s p => dupd s p.1 (fun o => o.getD 0 + (p.2.length : R) * w)) scores

/-- Score accumulation over the query terms: a term absent from the
index is skipped, a term missing from the idf map gets weight 0. -/
def buildScores {R : Type} [LinearOrderedCommRing R] (index : PositionalIndex)
    (idf : List (String × R)) (terms : List String) : List (String × R) :=
  terms.foldl (fun s term =>
    match dget index term with
    | none => s
    | some postings => accumPostings s postings ((dget idf term).getD 0)) []

/-- ranked_keyword_query_tfidf: accumulate TF-IDF scores, then sort the
scored documents by descending score with Python's stable sorted
(reverse=True, key = score), which keeps ties in insertion order. -/
def ranked_keyword_query_tfidf {R : Type} [LinearOrderedCommRing R]
    [DecidableRel ((· ≤ ·) : R → R → Prop)] (index : PositionalIndex)
    (idf : List (String × R)) (query : String) : List (String × R) :=
  let terms := tokenize_query query
  if terms.isEmpty then []
  else sortStable (fun x y => decide (y.2 ≤ x.2)) (buildScores index idf terms)

/-- Score a ranked result list assigns to one document, 0 if absent. -/
def docScore {R : Type} [LinearOrderedCommRing R] (results : List (String × R))
    (doc : String) : R :=
  (dget results doc).getD 0

/-- Loop of phrase_query over the remaining phrase terms: a term absent
from the whole index empties the result; otherwise every candidate
document keeps the successor positions at which the phrase is still
alive and is dropped when none survive. -/
def phraseLoop (index : PositionalIndex) (candidates : List (String × List Nat)) :
    List String → List String
  | [] => sortStable strLe (dkeys candidates)
  | term :: rest =>
    match dget index term with
    | none => []
    | some nextDocs =>
      let newCandidates := candidates.filterMap (fun dp =>
        match dget nextDocs dp.1 with
        | none => none
        | some nextPositions =>
          let moved := (dp.2.filter (fun p => nextPositions.contains (p + 1))).map
            (fun p => p + 1)
          if moved.isEmpty then none else some (dp.1, moved))
      if newCandidates.isEmpty then [] else phraseLoop index newCandidates rest

/-- phrase_query: exact phrase matching by positional adjacency,
starting from the postings of the first phrase term. -/
def phrase_query (index : PositionalIndex) (phrase : String) : List String :=
  match tokenize_query phrase with
  | [] => []
  | t0 :: rest =>
    match dget index t0 with
    | none => []
    | some postings => phraseLoop index postings rest

/-- Ordinals, counted from k, at which term occurs in a token list. -/
def occFrom (tokens : List String) (term : String) (k : Nat) : List Nat :=
  match tokens with
  | [] => []
  | t :: rest =>
    if t = term then k :: occFrom rest term (k + 1) else occFrom rest term (k + 1)

/-- Specification-level posting map of one term over a tokenized corpus:
one entry per document containing the term, in corpus order. -/
def postingsOf (corpus : List (String × List String)) (term : String) :
    List (String × List Nat) :=
  corpus.filterMap (fun p =>
    if term ∈ p.2 then some (p.1, occFrom p.2 term 0) else none)

/-- Document frequency of a term over a tokenized corpus. -/
def docFreq (corpus : List (String × List String)) (term : String) : Nat :=
  (corpus.filter (fun p => decide (term ∈ p.2))).length

/-- Append new postings behind an optional existing posting map, used to
state how indexing extends one term's entry. -/
def combineP (o : Option (List (String × List Nat)))
    (l : List (String × List Nat)) : Option (List (String × List Nat)) :=
  match o with
  | some pl => some (pl ++ l)
  | none => if l.isEmpty then none else some l

/-- Documents recorded under one term of the index. -/
def termKeys (idx : PositionalIndex) (term : String) : List String :=
  dkeys ((dget idx term).getD [])

/-- A document id that appears nowhere in the index yet. -/
def docFresh (idx : PositionalIndex) (d : String) : Prop :=
  ∀ term, d ∉ termKeys idx term

/-- Contribution of one query term to one document's accumulated score. -/
def termDocContrib {R : Type} [LinearOrderedCommRing R] (index : PositionalIndex)
    (idf : List (String × R)) (x t : String) : R :=
  match dget index t with
  | none => 0
  | some pl => ((pl.filter (fun p => decide (p.1 = x))).map
      (fun p => (p.2.length : R) * ((dget idf t).getD 0))).sum

/-! Dictionary lemmas. -/

theorem dget_dupd {β : Type} (m : List (String × β)) (k k' : String)
    (f : Option β → β) :
    dget (dupd m k f) k' = if k = k' then some (f (dget m k)) else dget m k' := by
  induction m with
  | nil => by_cases h : k = k' <;> simp [dget, dupd, h]
  | cons p rest ih =>
    obtain ⟨a, v⟩ := p
    by_cases hak : a = k
    · subst hak
      by_cases hk' : a = k' <;> simp [dget, dupd, hk']
    · by_cases hak' : a = k'
      · subst hak'
        have hka : ¬ k = a := fun h => hak h.symm
        simp [dget, dupd, hak, hka]
      · simp [dget, dupd, hak, hak', ih]

theorem mem_dkeys {β : Type} (m : List (String × β)) (k : String) :
    k ∈ dkeys m ↔ ∃ v, (k, v) ∈ m := by
  constructor
  · intro h
    obtain ⟨p, hp, hk⟩ := List.mem_map.1 h
    exact ⟨p.2, by simpa [← hk] using hp⟩
  · rintro ⟨v, hv⟩
    exact List.mem_map.2 ⟨(k, v), hv, rfl⟩

theorem dget_eq_none_iff {β : Type} (m : List (String × β)) (k : String) :
    dget m k = none ↔ k ∉ dkeys m := by
  induction m with
  | nil => simp [dget, dkeys]
  | cons p rest ih =>
    obtain ⟨a, v⟩ := p
    by_cases hak : a = k
    · subst hak
      simp [dget, dkeys]
    · simp [dget, dkeys, hak, ih, Ne.symm hak]

theorem dget_of_mem_nodup {β : Type} {m : List (String × β)} {k : String} {v : β}
    (hn : (dkeys m).Nodup) (hm : (k, v) ∈ m) : dget m k = some v := by
  induction m with
  | nil => cases hm
  | cons p rest ih =>
    obtain ⟨a, w⟩ := p
    have hn' := hn
    rw [dkeys, List.map_cons, List.nodup_cons] at hn'
    rcases List.mem_cons.1 hm with h | h
    · rw [Prod.mk.injEq] at h
      obtain ⟨h1, h2⟩ := h
      subst h1
      subst h2
      simp [dget]
    · have hka : a ≠ k := by
        intro hak
        subst hak
        exact hn'.1 ((mem_dkeys rest a).2 ⟨v, h⟩)
      simp [dget, hka, ih hn'.2 h]

theorem mem_of_dget {β : Type} {m : List (String × β)} {k : String} {v : β}
    (h : dget m k = some v) : (k, v) ∈ m := by
  induction m with
  | nil => simp [dget] at h
  | cons p rest ih =>
    obtain ⟨a, w⟩ := p
    by_cases hak : a = k
    · subst hak
      simp [dget] at h
      simp [h]
    · simp [dget, hak] at h
      exact List.mem_cons_of_mem _ (ih h)

theorem dkeys_dupd {β : Type} (m : List (String × β)) (k : String)
    (f : Option β → β) :
    dkeys (dupd m k f) = if k ∈ dkeys m then dkeys m else dkeys m ++ [k] := by
  induction m with
  | nil => simp [dkeys, dupd]
  | cons p rest ih =>
    obtain ⟨a, v⟩ := p
    by_cases hak : a = k
    · subst hak
      simp [dkeys, dupd]
    · have hka : ¬ k = a := fun h => hak h.symm
      by_cases hk : k ∈ dkeys rest
      · rw [dkeys] at hk
        simp [dkeys, dupd, hak, hka, hk] at ih ⊢
        exact ih
      · rw [dkeys] at hk
        simp [dkeys, dupd, hak, hka, hk] at ih ⊢
        exact ih

theorem mem_dkeys_dupd {β : Type} (m : List (String × β)) (k k' : String)
    (f : Option β → β) :
    k' ∈ dkeys (dupd m k f) ↔ k' ∈ dkeys m ∨ k' = k := by
  rw [dkeys_dupd]
  by_cases h : k ∈ dkeys m
  · simp [h]
    intro hk
    subst hk
    exact h
  · simp [h, or_comm]

theorem dkeys_dupd_nodup {β : Type} {m : List (String × β)} (k : String)
    (f : Option β → β) (hn : (dkeys m).Nodup) : (dkeys (dupd m k f)).Nodup := by
  rw [dkeys_dupd]
  by_cases h : k ∈ dkeys m
  · simpa [h] using hn
  · simp only [h, if_false]
    refine hn.append (List.nodup_singleton k) ?_
    intro a ha hak
    rw [List.mem_singleton] at hak
    subst hak
    exact h ha

theorem dupd_of_not_mem {β : Type} {m : List (String × β)} {k : String}
    (f : Option β → β) (h : k ∉ dkeys m) : dupd m k f = m ++ [(k, f none)] := by
  induction m with
  | nil => simp [dupd]
  | cons p rest ih =>
    obtain ⟨a, v⟩ := p
    simp [dkeys] at h
    simp [dupd, Ne.symm h.1, ih (by simp [dkeys, h.2])]

theorem dget_perm_of_nodup {β : Type} {m m' : List (String × β)}
    (hp : m.Perm m') (hn : (dkeys m).Nodup) (k : String) : dget m k = dget m' k := by
  have hn' : (dkeys m').Nodup := (hp.map Prod.fst).nodup_iff.1 hn
  cases h : dget m k with
  | none =>
    have : k ∉ dkeys m' := fun hk => by
      obtain ⟨v, hv⟩ := (mem_dkeys m' k).1 hk
      exact (dget_eq_none_iff m k).1 h ((mem_dkeys m k).2 ⟨v, hp.symm.subset hv⟩)
    exact ((dget_eq_none_iff m' k).2 this).symm
  | some v =>
    exact (dget_of_mem_nodup hn' (hp.subset (mem_of_dget h))).symm

/-! Stable sort lemmas. -/

theorem insertTail_perm {α : Type} (le : α → α → Bool) (a : α) (l : List α) :
    (insertTail le a l).Perm (a :: l) := by
  induction l with
  | nil => simp [insertTail]
  | cons b l ih =>
    by_cases h : le b a
    · simpa [insertTail, h] using ((ih.cons b).trans (List.Perm.swap a b l))
    · simp [insertTail, h]

theorem sortStable_perm {α : Type} (le : α → α → Bool) (l : List α) :
    (sortStable le l).Perm l := by
  suffices h : ∀ acc : List α,
      (l.foldl (fun acc a => insertTail le a acc) acc).Perm (acc ++ l) by
    simpa using h []
  induction l with
  | nil => simp
  | cons a l ih =>
    intro acc
    simp only [List.foldl_cons]
    refine (ih (insertTail le a acc)).trans ?_
    have h1 := (insertTail_perm le a acc).append_right l
    refine h1.trans ?_
    simpa using (@List.perm_middle _ a acc l).symm

theorem mem_sortStable {α : Type} (le : α → α → Bool) (l : List α) (a : α) :
    a ∈ sortStable le l ↔ a ∈ l :=
  (sortStable_perm le l).mem_iff

theorem insertTail_pairwise {α : Type} {le : α → α → Bool}
    (htrans : ∀ a b c, le a b = true → le b c = true → le a c = true)
    (htot : ∀ a b, le a b || le b a) (a : α) {l : List α}
    (hl : l.Pairwise (fun x y => le x y = true)) :
    (insertTail le a l).Pairwise (fun x y => le x y = true) := by
  induction l with
  | nil => simp [insertTail]
  | cons b l ih =>
    rcases List.pairwise_cons.1 hl with ⟨hb, hl'⟩
    by_cases h : le b a
    · simp only [insertTail, h, if_true]
      refine List.pairwise_cons.2 ⟨?_, ih hl'⟩
      intro x hx
      rcases List.mem_cons.1 ((insertTail_perm le a l).mem_iff.1 hx) with hx | hx
      · subst hx
        exact h
      · exact hb x hx
    · simp only [insertTail, h, if_false]
      have hab : le a b := by
        have := htot a b
        simpa [h] using this
      refine List.pairwise_cons.2 ⟨?_, hl⟩
      intro x hx
      rcases List.mem_cons.1 hx with hx | hx
      · simpa [hx] using hab
      · exact htrans a b x hab (hb x hx)

theorem sortStable_pairwise {α : Type} {le : α → α → Bool}
    (htrans : ∀ a b c, le a b = true → le b c = true → le a c = true)
    (htot : ∀ a b, le a b || le b a) (l : List α) :
    (sortStable le l).Pairwise (fun x y => le x y = true) := by
  suffices h : ∀ acc : List α, acc.Pairwise (fun x y => le x y = true) →
      (l.foldl (fun acc a => insertTail le a acc) acc).Pairwise
        (fun x y => le x y = true) by
    exact h [] (by simp)
  induction l with
  | nil => intro acc hacc; simpa using hacc
  | cons a l ih =>
    intro acc hacc
    simp only [List.foldl_cons]
    exact ih _ (insertTail_pairwise htrans htot a hacc)

/-! Occurrence lists. -/

theorem occFrom_eq_nil {tokens : List String} {term : String} {k : Nat} :
    occFrom tokens term k = [] ↔ term ∉ tokens := by
  induction tokens generalizing k with
  | nil => simp [occFrom]
  | cons t rest ih =>
    by_cases h : t = term
    · simp [occFrom, h]
    · simp [occFrom, h, ih, Ne.symm h]

theorem occFrom_length (tokens : List String) (term : String) (k : Nat) :
    (occFrom tokens term k).length = tokens.count term := by
  induction tokens generalizing k with
  | nil => simp [occFrom]
  | cons t rest ih =>
    by_cases h : t = term
    · simp [occFrom, h, ih, List.count_cons]
    · simp [occFrom, h, ih, List.count_cons]

theorem occFrom_lb {tokens : List String} {term : String} {k : Nat} :
    ∀ x ∈ occFrom tokens term k, k ≤ x := by
  induction tokens generalizing k with
  | nil => simp [occFrom]
  | cons t rest ih =>
    intro x hx
    by_cases h : t = term
    · rw [occFrom, if_pos h] at hx
      rcases List.mem_cons.1 hx with hx | hx
      · exact hx ▸ le_refl k
      · exact le_trans (Nat.le_succ k) (ih x hx)
    · rw [occFrom, if_neg h] at hx
      exact le_trans (Nat.le_succ k) (ih x hx)

theorem occFrom_chain (tokens : List String) (term : String) (k : Nat) :
    (occFrom tokens term k).Chain' (· < ·) := by
  induction tokens generalizing k with
  | nil => simp [occFrom]
  | cons t rest ih =>
    by_cases h : t = term
    · rw [occFrom, if_pos h]
      refine List.chain'_cons'.2 ⟨?_, ih (k + 1)⟩
      intro y hy
      exact lt_of_lt_of_le (Nat.lt_succ_self k) (occFrom_lb y (List.mem_of_mem_head? hy))
    · rw [occFrom, if_neg h]
      exact ih (k + 1)

/-! Characterization of the built positional index. -/

theorem dupd_dupd {β : Type} (m : List (String × β)) (k : String)
    (f g : Option β → β) :
    dupd (dupd m k f) k g = dupd m k (fun o => g (some (f o))) := by
  induction m with
  | nil => simp [dupd]
  | cons p rest ih =>
    obtain ⟨a, v⟩ := p
    by_cases hak : a = k
    · simp [dupd, hak]
    · simp [dupd, hak, ih]

theorem dget_addPosting (idx : PositionalIndex) (t d : String) (p : Nat)
    (term : String) :
    dget (addPosting idx t d p) term =
      if t = term then
        some (dupd ((dget idx t).getD []) d (fun o => o.getD [] ++ [p]))
      else dget idx term := by
  unfold addPosting
  rw [dget_dupd]

theorem dget_indexTokens (idx : PositionalIndex) (d : String)
    (toks : List String) (k : Nat) (term : String) :
    dget (indexTokens idx d toks k) term =
      if term ∈ toks then
        some (dupd ((dget idx term).getD []) d
          (fun o => o.getD [] ++ occFrom toks term k))
      else dget idx term := by
  induction toks generalizing idx k with
  | nil => simp [indexTokens]
  | cons t rest ih =>
    rw [indexTokens, ih]
    by_cases ht : t = term
    · subst ht
      rw [dget_addPosting, if_pos rfl]
      by_cases hr : t ∈ rest
      · rw [if_pos hr, if_pos (List.mem_cons_self t rest)]
        rw [Option.getD_some, dupd_dupd]
        congr 1
        apply congrArg
        funext o
        rw [occFrom, if_pos rfl]
        simp [List.append_assoc]
      · rw [if_neg hr, if_pos (List.mem_cons_self t rest)]
        congr 1
        apply congrArg
        funext o
        rw [occFrom, if_pos rfl, (occFrom_eq_nil).2 hr]
    · rw [dget_addPosting, if_neg ht]
      have hmem : term ∈ t :: rest ↔ term ∈ rest := by
        simp [Ne.symm ht]
      by_cases hr : term ∈ rest
      · rw [if_pos hr, if_pos (hmem.2 hr)]
        congr 1
        apply congrArg
        funext o
        rw [occFrom, if_neg ht]
      · rw [if_neg hr, if_neg (fun h => hr (hmem.1 h))]

theorem docFresh_nil (d : String) : docFresh [] d := by
  intro term
  simp [termKeys, dget, dkeys]

theorem docFresh_indexTokens {idx : PositionalIndex} {d d' : String}
    {toks : List String} {k : Nat} (h : docFresh idx d') (hne : d' ≠ d) :
    docFresh (indexTokens idx d toks k) d' := by
  intro term
  unfold termKeys
  rw [dget_indexTokens]
  by_cases ht : term ∈ toks
  · rw [if_pos ht, Option.getD_some]
    intro hmem
    rcases (mem_dkeys_dupd _ d d' _).1 hmem with h1 | h1
    · exact h term h1
    · exact hne h1
  · rw [if_neg ht]
    exact h term

theorem combineP_nil (o : Option (List (String × List Nat))) :
    combineP o [] = o := by
  cases o <;> simp [combineP]

theorem postingsOf_cons (d : String) (toks : List String)
    (rest : List (String × List String)) (term : String) :
    postingsOf ((d, toks) :: rest) term =
      if term ∈ toks then (d, occFrom toks term 0) :: postingsOf rest term
      else postingsOf rest term := by
  by_cases ht : term ∈ toks <;> simp [postingsOf, List.filterMap_cons, ht]

theorem dget_buildFold (corpus : List (String × List String))
    (acc : PositionalIndex) (term : String)
    (hn : (corpus.map Prod.fst).Nodup)
    (hf : ∀ p ∈ corpus, docFresh acc p.1) :
    dget (corpus.foldl (fun idx p => indexTokens idx p.1 p.2 0) acc) term =
      combineP (dget acc term) (postingsOf corpus term) := by
  induction corpus generalizing acc with
  | nil => simp [postingsOf, combineP_nil]
  | cons q rest ih =>
    obtain ⟨d, toks⟩ := q
    rw [List.foldl_cons]
    have hd_fresh : docFresh acc d := hf (d, toks) (List.mem_cons_self _ _)
    rw [List.map_cons, List.nodup_cons] at hn
    have hf' : ∀ p ∈ rest, docFresh (indexTokens acc d toks 0) p.1 := by
      intro p hp
      have hpd : p.1 ≠ d := by
        intro h
        exact hn.1 (List.mem_map.2 ⟨p, hp, h⟩)
      exact docFresh_indexTokens (hf p (List.mem_cons_of_mem _ hp)) hpd
    rw [ih (indexTokens acc d toks 0) hn.2 hf', dget_indexTokens, postingsOf_cons]
    by_cases ht : term ∈ toks
    · rw [if_pos ht, if_pos ht]
      have hd : d ∉ dkeys ((dget acc term).getD []) := hd_fresh term
      rw [dupd_of_not_mem _ hd]
      cases hacc : dget acc term with
      | none => simp [combineP]
      | some pl => simp [combineP]
    · rw [if_neg ht, if_neg ht]

theorem dget_buildIndexTokens (corpus : List (String × List String))
    (term : String) (hn : (corpus.map Prod.fst).Nodup) :
    dget (buildIndexTokens corpus) term = combineP none (postingsOf corpus term) := by
  unfold buildIndexTokens
  rw [dget_buildFold corpus [] term hn (fun p _ => docFresh_nil p.1)]
  rfl

theorem dkeys_indexTokens_nodup {idx : PositionalIndex} (d : String)
    (toks : List String) (k : Nat) (hn : (dkeys idx).Nodup) :
    (dkeys (indexTokens idx d toks k)).Nodup := by
  induction toks generalizing idx k with
  | nil => simpa [indexTokens] using hn
  | cons t rest ih =>
    rw [indexTokens]
    exact ih (k + 1) (dkeys_dupd_nodup t _ hn)

theorem dkeys_buildIndexTokens_nodup (corpus : List (String × List String)) :
    (dkeys (buildIndexTokens corpus)).Nodup := by
  unfold buildIndexTokens
  suffices h : ∀ acc : PositionalIndex, (dkeys acc).Nodup →
      (dkeys (corpus.foldl (fun idx p => indexTokens idx p.1 p.2 0) acc)).Nodup by
    exact h [] (by simp [dkeys])
  induction corpus with
  | nil => intro acc hacc; simpa using hacc
  | cons q rest ih =>
    intro acc hacc
    rw [List.foldl_cons]
    exact ih _ (dkeys_indexTokens_nodup q.1 q.2 0 hacc)

theorem mem_postingsOf {corpus : List (String × List String)} {term : String}
    {p : String × List Nat} :
    p ∈ postingsOf corpus term ↔
      ∃ q ∈ corpus, term ∈ q.2 ∧ p = (q.1, occFrom q.2 term 0) := by
  unfold postingsOf
  rw [List.mem_filterMap]
  constructor
  · rintro ⟨q, hq, hfq⟩
    by_cases ht : term ∈ q.2
    · rw [if_pos ht, Option.some.injEq] at hfq
      exact ⟨q, hq, ht, hfq.symm⟩
    · rw [if_neg ht] at hfq
      cases hfq
  · rintro ⟨q, hq, ht, hp⟩
    exact ⟨q, hq, by rw [if_pos ht, hp]⟩

theorem length_postingsOf (corpus : List (String × List String)) (term : String) :
    (postingsOf corpus term).length = docFreq corpus term := by
  induction corpus with
  | nil => simp [postingsOf, docFreq]
  | cons q rest ih =>
    obtain ⟨d, toks⟩ := q
    by_cases ht : term ∈ toks
    · rw [postingsOf_cons, if_pos ht]
      simp only [List.length_cons, ih]
      rw [docFreq, docFreq, List.filter_cons]
      simp [ht]
    · rw [postingsOf_cons, if_neg ht]
      rw [ih, docFreq, docFreq, List.filter_cons]
      simp [ht]

/-! Score accumulation lemmas. -/

theorem docScore_accumPostings {R : Type} [LinearOrderedCommRing R]
    (s : List (String × R)) (pl : List (String × List Nat)) (w : R) (x : String) :
    docScore (accumPostings s pl w) x =
      docScore s x + ((pl.filter (fun p => decide (p.1 = x))).map
        (fun p => (p.2.length : R) * w)).sum := by
  induction pl generalizing s with
  | nil => simp [accumPostings, docScore]
  | cons p rest ih =>
    obtain ⟨d0, ps⟩ := p
    have step : accumPostings s ((d0, ps) :: rest) w =
        accumPostings (dupd s d0 (fun o => o.getD 0 + (ps.length : R) * w)) rest w := rfl
    rw [step, ih]
    by_cases hd : d0 = x
    · subst hd
      have hds : docScore (dupd s d0 (fun o => o.getD 0 + (ps.length : R) * w)) d0 =
          docScore s d0 + (ps.length : R) * w := by
        unfold docScore
        rw [dget_dupd, if_pos rfl]
        cases dget s d0 <;> simp
      rw [hds, List.filter_cons]
      simp [add_assoc]
    · have hds : docScore (dupd s d0 (fun o => o.getD 0 + (ps.length : R) * w)) x =
          docScore s x := by
        unfold docScore
        rw [dget_dupd, if_neg hd]
      rw [hds, List.filter_cons]
      simp [hd]

theorem docScore_buildScores {R : Type} [LinearOrderedCommRing R]
    (index : PositionalIndex) (idf : List (String × R)) (terms : List String)
    (x : String) :
    docScore (buildScores index idf terms) x =
      (terms.map (termDocContrib index idf x)).sum := by
  suffices h : ∀ acc : List (String × R),
      docScore (terms.foldl (fun s term =>
        match dget index term with
        | none => s
        | some postings => accumPostings s postings ((dget idf term).getD 0)) acc) x =
      docScore acc x + (terms.map (termDocContrib index idf x)).sum by
    have h0 := h []
    simpa [docScore, dget] using h0
  induction terms with
  | nil => intro acc; simp [docScore]
  | cons t rest ih =>
    intro acc
    rw [List.foldl_cons]
    cases hidx : dget index t with
    | none =>
      rw [ih acc]
      simp [termDocContrib, hidx, add_assoc]
    | some pl =>
      rw [ih (accumPostings acc pl ((dget idf t).getD 0))]
      rw [docScore_accumPostings]
      simp [termDocContrib, hidx, add_assoc]

theorem mem_dkeys_accumPostings {R : Type} [LinearOrderedCommRing R]
    (s : List (String × R)) (pl : List (String × List Nat)) (w : R) (x : String) :
    x ∈ dkeys (accumPostings s pl w) ↔ x ∈ dkeys s ∨ x ∈ dkeys pl := by
  induction pl generalizing s with
  | nil => simp [accumPostings, dkeys]
  | cons p rest ih =>
    obtain ⟨d0, ps⟩ := p
    have step : accumPostings s ((d0, ps) :: rest) w =
        accumPostings (dupd s d0 (fun o => o.getD 0 + (ps.length : R) * w)) rest w := rfl
    rw [step, ih]
    rw [mem_dkeys_dupd]
    simp only [dkeys, List.map_cons, List.mem_cons]
    tauto

theorem mem_dkeys_buildScores {R : Type} [LinearOrderedCommRing R]
    (index : PositionalIndex) (idf : List (String × R)) (terms : List String)
    (x : String) :
    x ∈ dkeys (buildScores index idf terms) ↔
      ∃ t ∈ terms, ∃ pl, dget index t = some pl ∧ x ∈ dkeys pl := by
  suffices h : ∀ acc : List (String × R),
      (x ∈ dkeys (terms.foldl (fun s term =>
        match dget index term with
        | none => s
        | some postings => accumPostings s postings ((dget idf term).getD 0)) acc) ↔
      x ∈ dkeys acc ∨ ∃ t ∈ terms, ∃ pl, dget index t = some pl ∧ x ∈ dkeys pl) by
    have h0 := h []
    simpa [dkeys] using h0
  induction terms with
  | nil => intro acc; simp
  | cons t rest ih =>
    intro acc
    rw [List.foldl_cons]
    cases hidx : dget index t with
    | none =>
      rw [ih acc]
      constructor
      · rintro (h | h)
        · exact Or.inl h
        · obtain ⟨t', ht', hpl⟩ := h
          exact Or.inr ⟨t', List.mem_cons_of_mem _ ht', hpl⟩
      · rintro (h | h)
        · exact Or.inl h
        · obtain ⟨t', ht', pl, hpl, hx⟩ := h
          rcases List.mem_cons.1 ht' with h1 | h1
          · subst h1
            rw [hidx] at hpl
            cases hpl
          · exact Or.inr ⟨t', h1, pl, hpl, hx⟩
    | some pl =>
      rw [ih (accumPostings acc pl ((dget idf t).getD 0))]
      rw [mem_dkeys_accumPostings]
      constructor
      · rintro ((h | h) | h)
        · exact Or.inl h
        · exact Or.inr ⟨t, List.mem_cons_self _ _, pl, hidx, h⟩
        · obtain ⟨t', ht', hpl⟩ := h
          exact Or.inr ⟨t', List.mem_cons_of_mem _ ht', hpl⟩
      · rintro (h | h)
        · exact Or.inl (Or.inl h)
        · obtain ⟨t', ht', pl', hpl', hx⟩ := h
          rcases List.mem_cons.1 ht' with h1 | h1
          · subst h1
            rw [hidx] at hpl'
            cases hpl'
            exact Or.inl (Or.inr hx)
          · exact Or.inr ⟨t', h1, pl', hpl', hx⟩

theorem dkeys_accumPostings_nodup {R : Type} [LinearOrderedCommRing R]
    {s : List (String × R)} (pl : List (String × List Nat)) (w : R)
    (hn : (dkeys s).Nodup) : (dkeys (accumPostings s pl w)).Nodup := by
  induction pl generalizing s with
  | nil => simpa [accumPostings] using hn
  | cons p rest ih =>
    obtain ⟨d0, ps⟩ := p
    have step : accumPostings s ((d0, ps) :: rest) w =
        accumPostings (dupd s d0 (fun o => o.getD 0 + (ps.length : R) * w)) rest w := rfl
    rw [step]
    exact ih (dkeys_dupd_nodup d0 _ hn)

theorem dkeys_buildScores_nodup {R : Type} [LinearOrderedCommRing R]
    (index : PositionalIndex) (idf : List (String × R)) (terms : List String) :
    (dkeys (buildScores index idf terms)).Nodup := by
  suffices h : ∀ acc : List (String × R), (dkeys acc).Nodup →
      (dkeys (terms.foldl (fun s term =>
        match dget index term with
        | none => s
        | some postings => accumPostings s postings ((dget idf term).getD 0)) acc)).Nodup by
    exact h [] (by simp [dkeys])
  induction terms with
  | nil => intro acc hacc; simpa using hacc
  | cons t rest ih =>
    intro acc hacc
    rw [List.foldl_cons]
    cases hidx : dget index t with
    | none => exact ih acc hacc
    | some pl => exact ih _ (dkeys_accumPostings_nodup pl _ hacc)

/-! Transfer through the final descending sort. -/

theorem docScore_ranked {R : Type} [LinearOrderedCommRing R]
    [DecidableRel ((· ≤ ·) : R → R → Prop)] (index : PositionalIndex)
    (idf : List (String × R)) (q : String) (x : String) :
    docScore (ranked_keyword_query_tfidf index idf q) x =
      docScore (buildScores index idf (tokenize_query q)) x := by
  unfold ranked_keyword_query_tfidf
  by_cases h : (tokenize_query q).isEmpty
  · rw [if_pos h, List.isEmpty_iff.1 h]
    rfl
  · rw [if_neg h]
    unfold docScore
    rw [dget_perm_of_nodup (sortStable_perm _ _)
      (((sortStable_perm _ _).map Prod.fst).nodup_iff.2
        (dkeys_buildScores_nodup index idf (tokenize_query q)))]

theorem mem_fst_ranked {R : Type} [LinearOrderedCommRing R]
    [DecidableRel ((· ≤ ·) : R → R → Prop)] (index : PositionalIndex)
    (idf : List (String × R)) (q : String) (x : String) :
    x ∈ (ranked_keyword_query_tfidf index idf q).map Prod.fst ↔
      ∃ t ∈ tokenize_query q, ∃ pl, dget index t = some pl ∧ x ∈ dkeys pl := by
  unfold ranked_keyword_query_tfidf
  by_cases h : (tokenize_query q).isEmpty
  · rw [if_pos h, List.isEmpty_iff.1 h]
    simp
  · rw [if_neg h]
    rw [((sortStable_perm _ _).map Prod.fst).mem_iff]
    exact mem_dkeys_buildScores index idf (tokenize_query q) x

/-! IDF characterization. -/

theorem combineP_none_eq (l : List (String × List Nat)) :
    combineP none l = if l.isEmpty then none else some l := rfl

theorem dget_compute_idf_none {idx : PositionalIndex} {s : String} (N : Int)
    (h : s ∉ dkeys idx) : dget (compute_idf idx N) s = none := by
  unfold compute_idf
  by_cases hN : N ≤ 0
  · rw [if_pos hN]
    rfl
  · rw [if_neg hN]
    induction idx with
    | nil => rfl
    | cons p rest ih =>
      obtain ⟨a, pl⟩ := p
      simp only [dkeys, List.map_cons, List.mem_cons, not_or] at h
      by_cases hl : 0 < pl.length
      · simp only [List.filterMap_cons, hl, if_true, dget]
        rw [if_neg (fun heq => h.1 heq.symm)]
        exact ih (by simpa [dkeys] using h.2)
      · simp only [List.filterMap_cons, hl, if_false]
        exact ih (by simpa [dkeys] using h.2)

theorem dget_compute_idf_some {idx : PositionalIndex} {s : String}
    {pl : List (String × List Nat)} {N : Int} (hn : (dkeys idx).Nodup)
    (h : dget idx s = some pl) (hl : 0 < pl.length) (hN : ¬ N ≤ 0) :
    dget (compute_idf idx N) s =
      some (Real.log ((N : ℝ) / (pl.length : ℝ))) := by
  unfold compute_idf
  rw [if_neg hN]
  induction idx with
  | nil => simp [dget] at h
  | cons p rest ih =>
    obtain ⟨a, pl0⟩ := p
    simp only [dkeys, List.map_cons, List.nodup_cons] at hn
    by_cases ha : a = s
    · subst ha
      rw [dget, if_pos rfl, Option.some.injEq] at h
      subst h
      simp only [List.filterMap_cons, hl, if_true, dget, if_pos rfl]
    · rw [dget, if_neg ha] at h
      by_cases hl0 : 0 < pl0.length
      · simp only [List.filterMap_cons, hl0, if_true, dget]
        rw [if_neg ha]
        exact ih (by simpa [dkeys] using hn.2) h
      · simp only [List.filterMap_cons, hl0, if_false]
        exact ih (by simpa [dkeys] using hn.2) h

theorem docFreq_le_length (corpus : List (String × List String)) (s : String) :
    docFreq corpus s ≤ corpus.length :=
  List.length_filter_le _ _

theorem docFreq_pos_iff (corpus : List (String × List String)) (s : String) :
    0 < docFreq corpus s ↔ postingsOf corpus s ≠ [] := by
  rw [← length_postingsOf]
  cases postingsOf corpus s <;> simp

theorem dget_build_of_postingsOf_nil {corpus : List (String × List String)}
    {s : String} (hn : (corpus.map Prod.fst).Nodup)
    (hnil : postingsOf corpus s = []) :
    dget (buildIndexTokens corpus) s = none := by
  rw [dget_buildIndexTokens corpus s hn, hnil, combineP_nil]

theorem dget_build_of_postingsOf_ne_nil {corpus : List (String × List String)}
    {s : String} (hn : (corpus.map Prod.fst).Nodup)
    (hne : postingsOf corpus s ≠ []) :
    dget (buildIndexTokens corpus) s = some (postingsOf corpus s) := by
  rw [dget_buildIndexTokens corpus s hn, combineP_none_eq]
  rw [if_neg (by simpa [List.isEmpty_iff] using hne)]

/-- IDF weight the ranked engine reads for a term, over a built index. -/
theorem idfWeight_build (corpus : List (String × List String)) (s : String)
    (N : Int) (hn : (corpus.map Prod.fst).Nodup) :
    (dget (compute_idf (buildIndexTokens corpus) N) s).getD 0 =
      if 0 < N ∧ 0 < docFreq corpus s then
        Real.log ((N : ℝ) / (docFreq corpus s : ℝ))
      else 0 := by
  by_cases hN : N ≤ 0
  · unfold compute_idf
    rw [if_pos hN, if_neg (fun h => absurd h.1 (not_lt.2 hN))]
    rfl
  · by_cases hnil : postingsOf corpus s = []
    · have hb := dget_build_of_postingsOf_nil hn hnil
      rw [dget_compute_idf_none N ((dget_eq_none_iff _ _).1 hb)]
      have hdf : docFreq corpus s = 0 := by
        rw [← length_postingsOf, hnil]
        rfl
      rw [hdf, if_neg (fun h => lt_irrefl 0 h.2)]
      rfl
    · have hb := dget_build_of_postingsOf_ne_nil hn hnil
      have hdfpos : 0 < docFreq corpus s := (docFreq_pos_iff corpus s).2 hnil
      have hlpos : 0 < (postingsOf corpus s).length := by
        rw [length_postingsOf]
        exact hdfpos
      rw [dget_compute_idf_some (dkeys_buildIndexTokens_nodup corpus) hb hlpos hN]
      rw [Option.getD_some, length_postingsOf, if_pos ⟨not_le.1 hN, hdfpos⟩]

theorem idfWeight_build_nonneg (corpus : List (String × List String)) (s : String)
    (hn : (corpus.map Prod.fst).Nodup) :
    0 ≤ (dget (compute_idf (buildIndexTokens corpus) (corpus.length : Int)) s).getD 0 := by
  rw [idfWeight_build corpus s _ hn]
  by_cases h : 0 < (corpus.length : Int) ∧ 0 < docFreq corpus s
  · rw [if_pos h]
    apply Real.log_nonneg
    rw [le_div_iff₀ (by exact_mod_cast h.2)]
    rw [one_mul]
    exact_mod_cast docFreq_le_length corpus s
  · rw [if_neg h]

/-! Score formula over a built index. -/

theorem termDocContrib_of_none {R : Type} [LinearOrderedCommRing R]
    {index : PositionalIndex} {t : String} (idf : List (String × R)) (x : String)
    (h : dget index t = none) : termDocContrib index idf x t = 0 := by
  unfold termDocContrib
  rw [h]

theorem termDocContrib_of_some {R : Type} [LinearOrderedCommRing R]
    {index : PositionalIndex} {t : String} {pl : List (String × List Nat)}
    (idf : List (String × R)) (x : String) (h : dget index t = some pl) :
    termDocContrib index idf x t =
      ((pl.filter (fun p => decide (p.1 = x))).map
        (fun p => (p.2.length : R) * ((dget idf t).getD 0))).sum := by
  unfold termDocContrib
  rw [h]

theorem filter_postingsOf_nil {corpus : List (String × List String)} {d : String}
    (term : String) (h : d ∉ corpus.map Prod.fst) :
    (postingsOf corpus term).filter (fun p => decide (p.1 = d)) = [] := by
  rw [List.filter_eq_nil_iff]
  intro p hp
  obtain ⟨q, hq, _, hpq⟩ := mem_postingsOf.1 hp
  simp only [decide_eq_true_eq]
  intro hpd
  apply h
  rw [← hpd, hpq]
  exact List.mem_map_of_mem Prod.fst hq

theorem filter_postingsOf {corpus : List (String × List String)} {d : String}
    {toks : List String} (term : String)
    (hn : (corpus.map Prod.fst).Nodup) (hmem : (d, toks) ∈ corpus) :
    (postingsOf corpus term).filter (fun p => decide (p.1 = d)) =
      if term ∈ toks then [(d, occFrom toks term 0)] else [] := by
  induction corpus with
  | nil => cases hmem
  | cons q rest ih =>
    obtain ⟨d0, t0⟩ := q
    rw [List.map_cons, List.nodup_cons] at hn
    rcases List.mem_cons.1 hmem with h | h
    · rw [Prod.mk.injEq] at h
      obtain ⟨h1, h2⟩ := h
      subst h1
      subst h2
      rw [postingsOf_cons]
      by_cases ht : term ∈ toks
      · rw [if_pos ht, if_pos ht, List.filter_cons]
        simp only [decide_eq_true_eq, if_pos rfl]
        rw [filter_postingsOf_nil term hn.1]
        simp
      · rw [if_neg ht, if_neg ht]
        exact filter_postingsOf_nil term hn.1
    · have hd : d ≠ d0 := by
        intro heq
        subst heq
        exact hn.1 (List.mem_map.2 ⟨(d, toks), h, rfl⟩)
      rw [postingsOf_cons]
      by_cases ht0 : term ∈ t0
      · rw [if_pos ht0, List.filter_cons]
        simp only [decide_eq_true_eq]
        rw [if_neg (fun heq => hd heq.symm)]
        exact ih hn.2 h
      · rw [if_neg ht0]
        exact ih hn.2 h

theorem termDocContrib_build {R : Type} [LinearOrderedCommRing R]
    {corpus : List (String × List String)} {d : String} {toks : List String}
    (idf : List (String × R)) (t : String)
    (hn : (corpus.map Prod.fst).Nodup) (hmem : (d, toks) ∈ corpus) :
    termDocContrib (buildIndexTokens corpus) idf d t =
      (toks.count t : R) * ((dget idf t).getD 0) := by
  by_cases hnil : postingsOf corpus t = []
  · rw [termDocContrib_of_none idf d (dget_build_of_postingsOf_nil hn hnil)]
    have ht : t ∉ toks := by
      intro ht
      have : (d, occFrom toks t 0) ∈ postingsOf corpus t :=
        mem_postingsOf.2 ⟨(d, toks), hmem, ht, rfl⟩
      rw [hnil] at this
      cases this
    rw [List.count_eq_zero.2 (by simpa using ht)]
    simp
  · rw [termDocContrib_of_some idf d (dget_build_of_postingsOf_ne_nil hn hnil)]
    rw [filter_postingsOf t hn hmem]
    by_cases ht : t ∈ toks
    · rw [if_pos ht]
      simp [occFrom_length]
    · rw [if_neg ht]
      rw [List.count_eq_zero.2 (by simpa using ht)]
      simp

theorem docScore_build {R : Type} [LinearOrderedCommRing R]
    {corpus : List (String × List String)} {d : String} {toks : List String}
    (idf : List (String × R)) (terms : List String)
    (hn : (corpus.map Prod.fst).Nodup) (hmem : (d, toks) ∈ corpus) :
    docScore (buildScores (buildIndexTokens corpus) idf terms) d =
      (terms.map (fun t => (toks.count t : R) * ((dget idf t).getD 0))).sum := by
  rw [docScore_buildScores]
  congr 1
  apply List.map_congr_left
  intro t _
  exact termDocContrib_build idf t hn hmem

/-! Helpers for the claims. -/

theorem phraseLoop_eq_nil_of_absent {index : PositionalIndex} {terms : List String}
    {t : String} (cands : List (String × List Nat)) (ht : t ∈ terms)
    (habs : dget index t = none) : phraseLoop index cands terms = [] := by
  induction terms generalizing cands with
  | nil => cases ht
  | cons u rest ih =>
    rw [phraseLoop]
    cases hu : dget index u with
    | none => rfl
    | some nextDocs =>
      rcases List.mem_cons.1 ht with h | h
      · subst h
        rw [hu] at habs
        cases habs
      · dsimp only
        split
        · rfl
        · exact ih _ h

theorem buildScores_congr_idf {R : Type} [LinearOrderedCommRing R]
    (index : PositionalIndex) (idf1 idf2 : List (String × R)) (terms : List String)
    (h : ∀ t, (dget idf1 t).getD 0 = (dget idf2 t).getD 0) :
    buildScores index idf1 terms = buildScores index idf2 terms := by
  unfold buildScores
  suffices hs : ∀ acc : List (String × R),
      terms.foldl (fun s term =>
        match dget index term with
        | none => s
        | some postings => accumPostings s postings ((dget idf1 term).getD 0)) acc =
      terms.foldl (fun s term =>
        match dget index term with
        | none => s
        | some postings => accumPostings s postings ((dget idf2 term).getD 0)) acc by
    exact hs []
  induction terms with
  | nil => intro acc; rfl
  | cons u rest ih =>
    intro acc
    rw [List.foldl_cons, List.foldl_cons]
    cases hu : dget index u with
    | none => exact ih acc
    | some pl =>
      rw [h u]
      exact ih _

/-! Claims. -/

/-- C9.  The document tokenizer and the query tokenizer are extensionally
equal: both run the identical lowercase, punctuation-strip, split,
stop-word-filter pipeline. -/
theorem tokenize_eq_tokenize_query : ∀ s : String, tokenize s = tokenize_query s :=
  fun _ => rfl

/-- C8.  When the query tokenizes to no terms, both the ranked keyword
engine and the phrase engine return the empty result. -/
theorem empty_tokenization_empty_results {R : Type} [LinearOrderedCommRing R]
    [DecidableRel ((· ≤ ·) : R → R → Prop)] (index : PositionalIndex)
    (idf : List (String × R)) (q : String) (h : tokenize_query q = []) :
    ranked_keyword_query_tfidf index idf q = [] ∧ phrase_query index q = [] := by
  constructor
  · simp [ranked_keyword_query_tfidf, h]
  · rw [phrase_query, h]

/-- Witness for C8 at a concrete all-stop-word query. -/
theorem empty_tokenization_empty_results_witness :
    tokenize_query "the of  to" = [] ∧
      (ranked_keyword_query_tfidf [("x", [("a", [0])])] [("x", (1 : ℤ))]
          "the of  to" = [] ∧
        phrase_query [("x", [("a", [0])])] "the of  to" = []) :=
  ⟨by decide,
    empty_tokenization_empty_results [("x", [("a", [0])])] [("x", 1)] "the of  to"
      (by decide)⟩

/-- C6.  On the two-document corpus A = "machine learning is fun",
B = "learning machine is boring", the phrase query "machine learning"
returns exactly document A; B has both terms only in the other order. -/
theorem phrase_directionality_example :
    phrase_query (build_positional_index
        [("A", "machine learning is fun"), ("B", "learning machine is boring")]).1
      "machine learning" = ["A"] := by decide

/-- C3.  If a phrase term of index at least 1 is absent from the whole
index, phrase_query returns the empty list. -/
theorem phrase_absent_term_empty (index : PositionalIndex) (phrase t : String)
    (i : Nat) (h1 : 1 ≤ i) (h2 : (tokenize_query phrase)[i]? = some t)
    (h3 : dget index t = none) : phrase_query index phrase = [] := by
  cases hts : tokenize_query phrase with
  | nil => rw [phrase_query, hts]
  | cons t0 rest =>
    rw [phrase_query, hts]
    dsimp only
    cases hd : dget index t0 with
    | none => rfl
    | some postings =>
      cases i with
      | zero => cases h1
      | succ j =>
        rw [hts, List.getElem?_cons_succ] at h2
        exact phraseLoop_eq_nil_of_absent postings (List.getElem?_mem h2) h3

/-- Witness for C3: the second phrase term is missing from the index,
so the query is empty although the first term has postings. -/
theorem phrase_absent_term_empty_witness :
    (1 ≤ 1 ∧ (tokenize_query "machine learning")[1]? = some "learning" ∧
      dget [("machine", [("A", [0])])] "learning" = none) ∧
      phrase_query [("machine", [("A", [0])])] "machine learning" = [] :=
  ⟨⟨le_refl 1, by decide, by decide⟩,
    phrase_absent_term_empty [("machine", [("A", [0])])] "machine learning"
      "learning" 1 (le_refl 1) (by decide) (by decide)⟩

/-- C10.  A term without an idf entry is scored with weight 0: extending
the idf map with an explicit 0 entry for such a term leaves the ranked
result unchanged, and the lookup itself never fails. -/
theorem ranked_missing_idf_defaults_zero {R : Type} [LinearOrderedCommRing R]
    [DecidableRel ((· ≤ ·) : R → R → Prop)] (index : PositionalIndex)
    (idf : List (String × R)) (t : String) (q : String)
    (h : dget idf t = none) :
    ranked_keyword_query_tfidf index ((t, 0) :: idf) q =
      ranked_keyword_query_tfidf index idf q := by
  have hps : ∀ s, (dget ((t, (0 : R)) :: idf) s).getD 0 = (dget idf s).getD 0 := by
    intro s
    by_cases hst : t = s
    · subst hst
      rw [dget, if_pos rfl, h]
      rfl
    · rw [dget, if_neg hst]
  simp only [ranked_keyword_query_tfidf]
  rw [buildScores_congr_idf index ((t, (0 : R)) :: idf) idf (tokenize_query q) hps]

/-- Witness for C10 on a concrete index whose term has no idf entry. -/
theorem ranked_missing_idf_defaults_zero_witness :
    dget [("y", (1 : ℤ))] "x" = none ∧
      ranked_keyword_query_tfidf [("x", [("a", [0])])] [("x", (0 : ℤ)), ("y", 1)]
          "x y" =
        ranked_keyword_query_tfidf [("x", [("a", [0])])] [("y", (1 : ℤ))] "x y" :=
  ⟨by decide,
    ranked_missing_idf_defaults_zero [("x", [("a", [0])])] [("y", (1 : ℤ))] "x"
      "x y" (by decide)⟩

/-- C1 (amended).  The ranked output is sorted by descending score.  The
original tie-break claim fails: entries with equal score keep the
insertion order of the scores map, not ascending document id. -/
theorem ranked_output_sorted_desc {R : Type} [LinearOrderedCommRing R]
    [DecidableRel ((· ≤ ·) : R → R → Prop)] (index : PositionalIndex)
    (idf : List (String × R)) (query : String) :
    (ranked_keyword_query_tfidf index idf query).Pairwise
      (fun a b => b.2 ≤ a.2) := by
  simp only [ranked_keyword_query_tfidf]
  by_cases he : (tokenize_query query).isEmpty
  · rw [if_pos he]
    exact List.Pairwise.nil
  · rw [if_neg he]
    have htrans : ∀ a b c : String × R,
        (fun x y : String × R => decide (y.2 ≤ x.2)) a b = true →
        (fun x y : String × R => decide (y.2 ≤ x.2)) b c = true →
        (fun x y : String × R => decide (y.2 ≤ x.2)) a c = true := by
      intro a b c hab hbc
      simp only [decide_eq_true_eq] at hab hbc ⊢
      exact le_trans hbc hab
    have htot : ∀ a b : String × R,
        ((fun x y : String × R => decide (y.2 ≤ x.2)) a b ||
          (fun x y : String × R => decide (y.2 ≤ x.2)) b a) = true := by
      intro a b
      simp only [Bool.or_eq_true, decide_eq_true_eq]
      exact le_total b.2 a.2
    exact (sortStable_pairwise htrans htot _).imp (fun h => of_decide_eq_true h)

/-- C1 counterexample: a two-document corpus whose query hits both
documents with equal score returns them in descending id order (the
accumulation order), refuting the ascending-id tie-break. -/
theorem ranked_tie_order_counterexample :
    ¬ List.Pairwise (fun a b => b.2 < a.2 ∨ (a.2 = b.2 ∧ strLe a.1 b.1 = true))
      (ranked_keyword_query_tfidf
        (build_positional_index [("a", "y"), ("b", "x")]).1
        [("x", (1 : ℤ)), ("y", 1)] "x y") := by decide

/-- C2 (amended).  A document appears in the ranked output exactly when
some query term present in the index has it in its posting map,
regardless of the accumulated score; in particular score-zero documents
do appear (see the counterexample). -/
theorem ranked_membership_characterization {R : Type} [LinearOrderedCommRing R]
    [DecidableRel ((· ≤ ·) : R → R → Prop)] (index : PositionalIndex)
    (idf : List (String × R)) (q : String) (x : String) :
    x ∈ (ranked_keyword_query_tfidf index idf q).map Prod.fst ↔
      ∃ t ∈ tokenize_query q, ∃ pl, dget index t = some pl ∧ x ∈ dkeys pl :=
  mem_fst_ranked index idf q x

/-- C2 counterexample: in a one-document corpus the only term occurs in
every document, its idf is log 1 = 0, the document's accumulated score
is 0, and the document still appears in the ranked result. -/
theorem ranked_zero_score_counterexample :
    ("a", (0 : ℝ)) ∈ ranked_keyword_query_tfidf
      (build_positional_index [("a", "x")]).1
      (compute_idf (build_positional_index [("a", "x")]).1
        ((build_positional_index [("a", "x")]).2 : Int)) "x" := by
  have h : ranked_keyword_query_tfidf
      (build_positional_index [("a", "x")]).1
      (compute_idf (build_positional_index [("a", "x")]).1
        ((build_positional_index [("a", "x")]).2 : Int)) "x" = [("a", 0)] := by
    simp [ranked_keyword_query_tfidf, build_positional_index, compute_idf,
      tokenize, tokenize_query, buildIndexTokens, indexTokens, addPosting, dupd,
      dget, buildScores, accumPostings, sortStable, insertTail, splitWordsAux,
      isPySpace, isPyPunct, STOP_WORDS]
  rw [h]
  exact List.mem_singleton.2 rfl

/-- C7.  In the index built from a corpus with distinct document ids,
every term maps every recorded document to a non-empty, strictly
increasing position list. -/
theorem index_position_lists_sorted_nonempty (corpus : List (String × String))
    (hn : (corpus.map Prod.fst).Nodup) :
    ∀ tp ∈ (build_positional_index corpus).1, ∀ e ∈ tp.2,
      e.2 ≠ [] ∧ e.2.Chain' (· < ·) := by
  intro tp htp e he
  have hn2 : ((corpus.map (fun q => (q.1, tokenize q.2))).map Prod.fst).Nodup := by
    simpa [List.map_map, Function.comp] using hn
  have hget : dget (buildIndexTokens
      (corpus.map (fun q => (q.1, tokenize q.2)))) tp.1 = some tp.2 :=
    dget_of_mem_nodup (dkeys_buildIndexTokens_nodup _) (by simpa using htp)
  rw [dget_buildIndexTokens _ tp.1 hn2, combineP_none_eq] at hget
  by_cases hnil :
      (postingsOf (corpus.map (fun q => (q.1, tokenize q.2))) tp.1).isEmpty
  · rw [if_pos hnil] at hget
    cases hget
  · rw [if_neg hnil, Option.some.injEq] at hget
    have he' : e ∈ postingsOf (corpus.map (fun q => (q.1, tokenize q.2))) tp.1 := by
      rw [hget]
      exact he
    obtain ⟨qd, _, hterm, hpe⟩ := mem_postingsOf.1 he'
    rw [hpe]
    refine ⟨?_, occFrom_chain qd.2 tp.1 0⟩
    intro hc
    exact (occFrom_eq_nil.1 hc) hterm

/-- Witness for C7 on a one-document corpus with a repeated token. -/
theorem index_position_lists_sorted_nonempty_witness :
    (([("doc", "cat dog cat")] : List (String × String)).map Prod.fst).Nodup ∧
      ∀ tp ∈ (build_positional_index [("doc", "cat dog cat")]).1, ∀ e ∈ tp.2,
        e.2 ≠ [] ∧ e.2.Chain' (· < ·) :=
  ⟨by decide,
    index_position_lists_sorted_nonempty [("doc", "cat dog cat")] (by decide)⟩

/-- C4.  With 1 ≤ DF(term) ≤ N for every indexed term, compute_idf maps
each term to log(N / DF(term)), which is nonnegative and zero exactly
when DF(term) = N; and a nonpositive document count gives the empty map. -/
theorem compute_idf_spec (index : PositionalIndex) (N : Int)
    (hdf : ∀ p ∈ index, 1 ≤ p.2.length ∧ (p.2.length : Int) ≤ N) :
    (N ≤ 0 → compute_idf index N = []) ∧
      ∀ p ∈ index,
        (p.1, Real.log ((N : ℝ) / (p.2.length : ℝ))) ∈ compute_idf index N ∧
          0 ≤ Real.log ((N : ℝ) / (p.2.length : ℝ)) ∧
          (Real.log ((N : ℝ) / (p.2.length : ℝ)) = 0 ↔ (p.2.length : Int) = N) := by
  constructor
  · intro hN
    unfold compute_idf
    rw [if_pos hN]
  · intro p hp
    obtain ⟨h1, h2⟩ := hdf p hp
    have h1i : (1 : Int) ≤ (p.2.length : Int) := by exact_mod_cast h1
    have hNpos : ¬ N ≤ 0 := by omega
    have hlpos : (0 : ℝ) < (p.2.length : ℝ) := by
      have : (0 : Int) < (p.2.length : Int) := by omega
      exact_mod_cast this
    have hone : (1 : ℝ) ≤ (N : ℝ) / (p.2.length : ℝ) := by
      rw [le_div_iff₀ hlpos, one_mul]
      exact_mod_cast h2
    refine ⟨?_, Real.log_nonneg hone, ?_⟩
    · unfold compute_idf
      rw [if_neg hNpos]
      refine List.mem_filterMap.2 ⟨p, hp, ?_⟩
      rw [if_pos (by omega)]
    · rw [Real.log_eq_zero]
      constructor
      · rintro (h | h | h)
        · rw [h] at hone
          linarith
        · rw [div_eq_one_iff_eq (ne_of_gt hlpos)] at h
          exact_mod_cast h.symm
        · rw [h] at hone
          linarith
      · intro h
        right
        left
        rw [div_eq_one_iff_eq (ne_of_gt hlpos)]
        exact_mod_cast h.symm

/-- Witness for C4 on a one-term, one-document index with N = 1. -/
theorem compute_idf_spec_witness :
    (∀ p ∈ ([("x", [("a", [0])])] : PositionalIndex),
        1 ≤ p.2.length ∧ (p.2.length : Int) ≤ 1) ∧
      (((1 : Int) ≤ 0 → compute_idf [("x", [("a", [0])])] 1 = []) ∧
        ∀ p ∈ ([("x", [("a", [0])])] : PositionalIndex),
          (p.1, Real.log (((1 : Int) : ℝ) / (p.2.length : ℝ))) ∈
              compute_idf [("x", [("a", [0])])] 1 ∧
            0 ≤ Real.log (((1 : Int) : ℝ) / (p.2.length : ℝ)) ∧
            (Real.log (((1 : Int) : ℝ) / (p.2.length : ℝ)) = 0 ↔
              (p.2.length : Int) = 1)) :=
  ⟨by decide, compute_idf_spec [("x", [("a", [0])])] 1 (by decide)⟩

/-! Monotonicity of the ranked score in one term occurrence. -/

theorem count_insert_middle (l1 l2 : List String) (t s : String) :
    (l1 ++ t :: l2).count s = (l1 ++ l2).count s + if t = s then 1 else 0 := by
  by_cases h : t = s
  · subst h
    simp [List.count_append, List.count_cons]
    omega
  · simp [List.count_append, List.count_cons, h]

theorem mem_insert_middle_iff {l1 l2 : List String} {t : String}
    (ht : t ∈ l1 ++ l2) (s : String) :
    s ∈ l1 ++ t :: l2 ↔ s ∈ l1 ++ l2 := by
  constructor
  · intro h
    rcases List.mem_append.1 h with h | h
    · exact List.mem_append.2 (Or.inl h)
    · rcases List.mem_cons.1 h with h | h
      · exact h ▸ ht
      · exact List.mem_append.2 (Or.inr h)
  · intro h
    rcases List.mem_append.1 h with h | h
    · exact List.mem_append.2 (Or.inl h)
    · exact List.mem_append.2 (Or.inr (List.mem_cons_of_mem _ h))

theorem docFreq_append_cons (X Y : List (String × List String)) (d : String)
    (toks : List String) (s : String) :
    docFreq (X ++ (d, toks) :: Y) s =
      docFreq X s + (if s ∈ toks then 1 else 0) + docFreq Y s := by
  unfold docFreq
  rw [List.filter_append, List.filter_cons]
  by_cases h : s ∈ toks <;> simp [h] <;> omega

/-- C5.  Re-indexing after inserting one extra occurrence of a term t
into document d (all other documents unchanged, the document count and
the idf map recomputed) never decreases d's accumulated score in the
ranked keyword engine for a query containing t. -/
theorem ranked_score_monotone_extra_occurrence
    (A B : List (String × String)) (d t x x' q : String) (l1 l2 : List String)
    (hids : ((A ++ (d, x) :: B).map Prod.fst).Nodup)
    (htok : tokenize x = l1 ++ l2) (htok' : tokenize x' = l1 ++ t :: l2)
    (ht : t ∈ l1 ++ l2) (hq : t ∈ tokenize_query q) :
    docScore (ranked_keyword_query_tfidf
        (build_positional_index (A ++ (d, x) :: B)).1
        (compute_idf (build_positional_index (A ++ (d, x) :: B)).1
          ((build_positional_index (A ++ (d, x) :: B)).2 : Int)) q) d ≤
      docScore (ranked_keyword_query_tfidf
        (build_positional_index (A ++ (d, x') :: B)).1
        (compute_idf (build_positional_index (A ++ (d, x') :: B)).1
          ((build_positional_index (A ++ (d, x') :: B)).2 : Int)) q) d := by
  have hb1 : (build_positional_index (A ++ (d, x) :: B)).1 =
      buildIndexTokens (A.map (fun p => (p.1, tokenize p.2)) ++
        (d, l1 ++ l2) :: B.map (fun p => (p.1, tokenize p.2))) := by
    simp [build_positional_index, htok]
  have hb2 : (build_positional_index (A ++ (d, x') :: B)).1 =
      buildIndexTokens (A.map (fun p => (p.1, tokenize p.2)) ++
        (d, l1 ++ t :: l2) :: B.map (fun p => (p.1, tokenize p.2))) := by
    simp [build_positional_index, htok']
  have hN1 : ((build_positional_index (A ++ (d, x) :: B)).2 : Int) =
      (((A.map (fun p => (p.1, tokenize p.2)) ++
        (d, l1 ++ l2) :: B.map (fun p => (p.1, tokenize p.2))).length : Nat) : Int) := by
    simp [build_positional_index]
  have hN2 : ((build_positional_index (A ++ (d, x') :: B)).2 : Int) =
      (((A.map (fun p => (p.1, tokenize p.2)) ++
        (d, l1 ++ t :: l2) :: B.map (fun p => (p.1, tokenize p.2))).length : Nat) : Int) := by
    simp [build_positional_index]
  have hll : ((A.map (fun p => (p.1, tokenize p.2)) ++
      (d, l1 ++ t :: l2) :: B.map (fun p => (p.1, tokenize p.2))).length : Nat) =
      ((A.map (fun p => (p.1, tokenize p.2)) ++
        (d, l1 ++ l2) :: B.map (fun p => (p.1, tokenize p.2))).length : Nat) := by
    simp
  have hids1 : (((A.map (fun p => (p.1, tokenize p.2)) ++
      (d, l1 ++ l2) :: B.map (fun p => (p.1, tokenize p.2)))).map Prod.fst).Nodup := by
    simpa [List.map_append, List.map_map, Function.comp] using hids
  have hids2 : (((A.map (fun p => (p.1, tokenize p.2)) ++
      (d, l1 ++ t :: l2) :: B.map (fun p => (p.1, tokenize p.2)))).map Prod.fst).Nodup := by
    simpa [List.map_append, List.map_map, Function.comp] using hids
  have hmem1 : (d, l1 ++ l2) ∈ A.map (fun p => (p.1, tokenize p.2)) ++
      (d, l1 ++ l2) :: B.map (fun p => (p.1, tokenize p.2)) :=
    List.mem_append.2 (Or.inr (List.mem_cons_self _ _))
  have hmem2 : (d, l1 ++ t :: l2) ∈ A.map (fun p => (p.1, tokenize p.2)) ++
      (d, l1 ++ t :: l2) :: B.map (fun p => (p.1, tokenize p.2)) :=
    List.mem_append.2 (Or.inr (List.mem_cons_self _ _))
  have hdf : ∀ s : String,
      docFreq (A.map (fun p => (p.1, tokenize p.2)) ++
        (d, l1 ++ t :: l2) :: B.map (fun p => (p.1, tokenize p.2))) s =
      docFreq (A.map (fun p => (p.1, tokenize p.2)) ++
        (d, l1 ++ l2) :: B.map (fun p => (p.1, tokenize p.2))) s := by
    intro s
    rw [docFreq_append_cons, docFreq_append_cons,
      if_congr (mem_insert_middle_iff ht s) rfl rfl]
  rw [hb1, hb2, hN1, hN2, hll]
  rw [docScore_ranked, docScore_ranked]
  rw [docScore_build _ _ hids1 hmem1, docScore_build _ _ hids2 hmem2]
  have hwids : ∀ s : String,
      (dget (compute_idf (buildIndexTokens (A.map (fun p => (p.1, tokenize p.2)) ++
          (d, l1 ++ t :: l2) :: B.map (fun p => (p.1, tokenize p.2))))
        (((A.map (fun p => (p.1, tokenize p.2)) ++
          (d, l1 ++ l2) :: B.map (fun p => (p.1, tokenize p.2))).length : Nat) : Int)) s).getD 0 =
      (dget (compute_idf (buildIndexTokens (A.map (fun p => (p.1, tokenize p.2)) ++
          (d, l1 ++ l2) :: B.map (fun p => (p.1, tokenize p.2))))
        (((A.map (fun p => (p.1, tokenize p.2)) ++
          (d, l1 ++ l2) :: B.map (fun p => (p.1, tokenize p.2))).length : Nat) : Int)) s).getD 0 := by
    intro s
    rw [idfWeight_build _ _ _ hids2, idfWeight_build _ _ _ hids1, hdf s]
  apply List.sum_le_sum
  intro s hs
  rw [hwids s]
  by_cases hts : t = s
  · subst hts
    rw [count_insert_middle l1 l2 t t, if_pos rfl]
    have hw0 : 0 ≤ (dget (compute_idf (buildIndexTokens
        (A.map (fun p => (p.1, tokenize p.2)) ++
          (d, l1 ++ l2) :: B.map (fun p => (p.1, tokenize p.2))))
        (((A.map (fun p => (p.1, tokenize p.2)) ++
          (d, l1 ++ l2) :: B.map (fun p => (p.1, tokenize p.2))).length : Nat) : Int)) t).getD 0 :=
      idfWeight_build_nonneg _ t hids1
    apply mul_le_mul_of_nonneg_right _ hw0
    push_cast
    linarith
  · rw [count_insert_middle l1 l2 t s, if_neg hts]
    simp

/-- Witness for C5 on a one-document corpus gaining a second "cat". -/
theorem ranked_score_monotone_extra_occurrence_witness :
    (((([] : List (String × String)) ++ ("d", "cat") :: []).map Prod.fst).Nodup ∧
      tokenize "cat" = ["cat"] ++ [] ∧
      tokenize "cat cat" = ["cat"] ++ "cat" :: [] ∧
      "cat" ∈ ["cat"] ++ ([] : List String) ∧
      "cat" ∈ tokenize_query "cat") ∧
    docScore (ranked_keyword_query_tfidf
        (build_positional_index (([] : List (String × String)) ++ ("d", "cat") :: [])).1
        (compute_idf (build_positional_index (([] : List (String × String)) ++ ("d", "cat") :: [])).1
          ((build_positional_index (([] : List (String × String)) ++ ("d", "cat") :: [])).2 : Int)) "cat") "d" ≤
      docScore (ranked_keyword_query_tfidf
        (build_positional_index (([] : List (String × String)) ++ ("d", "cat cat") :: [])).1
        (compute_idf (build_positional_index (([] : List (String × String)) ++ ("d", "cat cat") :: [])).1
          ((build_positional_index (([] : List (String × String)) ++ ("d", "cat cat") :: [])).2 : Int)) "cat") "d" :=
  ⟨⟨by decide, by decide, by decide, by decide, by decide⟩,
    ranked_score_monotone_extra_occurrence [] [] "d" "cat" "cat" "cat cat" "cat"
      ["cat"] [] (by decide) (by decide) (by decide) (by decide) (by decide)⟩

end SearchEngine
